import Mathlib

/-!
Verification of the x86-64 code-generation back end (`src/compiler/asmgen.rs`)
of the `crumb` compiler: instruction selection from three-address IR
("tacky"), resolution of pseudo (temporary) operands into stack slots,
legalization of the resulting instructions, and textual emission.

Machine integers of the source (`i32` offsets and immediates, `u16`
temporary ids) are modelled as `Int` and `Nat`: the code performs no
wrapping arithmetic on them (offsets only ever step down by 4, once per
distinct `u16` id, so their magnitude is bounded far below `2^31`).
-/

/-- Modelled from the spec: the unary-operator type of the parser module
(`parser.rs` is not part of the sources under verification); §3 of the spec
lists negate and bitwise-complement. -/
inductive UnaryOp : Type where
  | Negate : UnaryOp
  | BitwiseComplement : UnaryOp
deriving DecidableEq

/-- Modelled from the spec: the binary-operator type of the parser module
(`parser.rs` is not part of the sources under verification); §3 of the spec
lists add, subtract, multiply, bitwise-and/or/xor, divide, remainder. -/
inductive BinaryOp : Type where
  | Add : BinaryOp
  | Subtract : BinaryOp
  | Multiply : BinaryOp
  | BitwiseAnd : BinaryOp
  | BitwiseOr : BinaryOp
  | BitwiseXor : BinaryOp
  | Divide : BinaryOp
  | Remainder : BinaryOp
deriving DecidableEq

/-- Modelled from the spec: an IR value of the tacky module (`tacky.rs` is
not part of the sources under verification): a signed 32-bit constant or a
temporary identified by a small unsigned id (§3). -/
inductive ValTacky : Type where
  | Const : (int : Int) → ValTacky
  | TmpVar : (no : Nat) → ValTacky
deriving DecidableEq

/-- Modelled from the spec: an IR instruction of the tacky module:
`Return(value)`, `UnaryOp(op, src, dst)` or `BinaryOp(op, src1, src2, dst)`
(§3). -/
inductive InstructionTacky : Type where
  | Ret : (v : ValTacky) → InstructionTacky
  | Unary : (op : UnaryOp) → (src : ValTacky) → (dst : ValTacky) → InstructionTacky
  | Binary : (op : BinaryOp) → (src1 : ValTacky) → (src2 : ValTacky) → (dst : ValTacky) → InstructionTacky
deriving DecidableEq

/-- Modelled from the spec: an IR function definition of the tacky module:
a name and an ordered sequence of IR instructions (§3). -/
structure FunDefTacky : Type where
  identifier : String
  instructions : List InstructionTacky
deriving DecidableEq

/-- Modelled from the spec: an IR program of the tacky module: a single
function definition (§1, §2). -/
structure ProgramTacky : Type where
  function : FunDefTacky
deriving DecidableEq

/-- x86-64 registers (`Register` in `asmgen.rs`). -/
inductive Register : Type where
  | AX : Register
  | R10 : Register
  | DX : Register
  | R11 : Register
deriving DecidableEq

/-- x86-64 operand (`OperandAsm` in `asmgen.rs`):
`Imm(int) | Reg(reg) | Pseudo(identifier) | Stack(int)`. -/
inductive OperandAsm : Type where
  | Imm : (int : Int) → OperandAsm
  | Reg : (r : Register) → OperandAsm
  | Pseudo : (id : Nat) → OperandAsm
  | Stack : (off : Int) → OperandAsm
deriving DecidableEq

/-- Whether an operand is a `Pseudo` (temporary) reference, i.e. the
source's `matches!(op, OperandAsm::Pseudo { .. })`. -/
def OperandAsm.isPseudo (operand : OperandAsm) : Bool :=
  match operand with
  | .Pseudo _ => true
  | _ => false

/-- Whether an operand is a `Stack` slot, i.e. the source's
`matches!(op, OperandAsm::Stack { off: _ })`. -/
def OperandAsm.isStackSlot (operand : OperandAsm) : Bool :=
  match operand with
  | .Stack _ => true
  | _ => false

/-- Whether an operand is an `Imm` (immediate). -/
def OperandAsm.isImm (operand : OperandAsm) : Bool :=
  match operand with
  | .Imm _ => true
  | _ => false

/-- x86-64 instruction (`InstructionAsm` in `asmgen.rs`). -/
inductive InstructionAsm : Type where
  | Mov : (src : OperandAsm) → (dst : OperandAsm) → InstructionAsm
  | Ret : InstructionAsm
  | Unary : (unop : UnaryOp) → (operand : OperandAsm) → InstructionAsm
  | AllocStack : (off : Int) → InstructionAsm
  | Binary : (binop : BinaryOp) → (src : OperandAsm) → (dst : OperandAsm) → InstructionAsm
  | Idiv : (operand : OperandAsm) → InstructionAsm
  | Cdq : InstructionAsm
deriving DecidableEq

/-- x86-64 function definition (`FunDefAsm` in `asmgen.rs`). -/
structure FunDefAsm : Type where
  identifier : String
  instructions : List InstructionAsm
deriving DecidableEq

/-- x86-64 program (`ProgramAsm` in `asmgen.rs`). -/
structure ProgramAsm : Type where
  function : FunDefAsm
deriving DecidableEq

/-- `translate_valtacky` in `asmgen.rs`: constant to immediate, temporary
to pseudo operand. -/
def translate_valtacky (tval : ValTacky) : OperandAsm :=
  match tval with
  | .Const int => .Imm int
  | .TmpVar no => .Pseudo no

/-- The per-instruction block appended by the loop body of
`translate_with_pseudo` in `asmgen.rs`. -/
def translate_one (tacky_instr : InstructionTacky) : List InstructionAsm :=
  match tacky_instr with
  | .Ret v => [.Mov (translate_valtacky v) (.Reg .AX), .Ret]
  | .Unary op src dst =>
      [.Mov (translate_valtacky src) (translate_valtacky dst),
       .Unary op (translate_valtacky dst)]
  | .Binary op src1 src2 dst =>
      match op with
      | .Divide =>
          [.Mov (translate_valtacky src1) (.Reg .AX),
           .Cdq,
           .Idiv (translate_valtacky src2),
           .Mov (.Reg .AX) (translate_valtacky dst)]
      | .Remainder =>
          [.Mov (translate_valtacky src1) (.Reg .AX),
           .Cdq,
           .Idiv (translate_valtacky src2),
           .Mov (.Reg .DX) (translate_valtacky dst)]
      | _ =>
          [.Mov (translate_valtacky src1) (translate_valtacky dst),
           .Binary op (translate_valtacky src2) (translate_valtacky dst)]

/-- `translate_with_pseudo` in `asmgen.rs`: the instruction selector; each
IR instruction contributes its block in order. -/
def translate_with_pseudo (tacky_instrs : List InstructionTacky) : List InstructionAsm :=
  match tacky_instrs with
  | [] => []
  | i :: rest => translate_one i ++ translate_with_pseudo rest

/-- Resolver state (`TmpVarResolver` in `asmgen.rs`); the `HashMap` is
modelled as an association list: the code only ever uses keyed lookup and
insertion of a key not yet present, so iteration order is irrelevant. -/
structure TmpVarResolver : Type where
  min : Int
  min_used : Int
  id_to_off : List (Nat × Int)
deriving DecidableEq

/-- `TmpVarResolver::new` in `asmgen.rs`. -/
def TmpVarResolver.new : TmpVarResolver :=
  { min := -4, min_used := 0, id_to_off := [] }

/-- Keyed lookup in the association list modelling `HashMap::get`. -/
def lookupOff (l : List (Nat × Int)) (id : Nat) : Option Int :=
  match l with
  | [] => none
  | (k, v) :: rest => if k = id then some v else lookupOff rest id

/-- `TmpVarResolver::temp_to_stack` in `asmgen.rs`: rewrite a pseudo
operand to its stack slot, assigning the next 4-byte slot on first
encounter; returns the updated resolver state alongside the operand. -/
def temp_to_stack (r : TmpVarResolver) (operand : OperandAsm) : TmpVarResolver × OperandAsm :=
  match operand with
  | .Pseudo id =>
      match lookupOff r.id_to_off id with
      | some off => (r, .Stack off)
      | none =>
          ({ min := r.min - 4, min_used := r.min,
             id_to_off := (id, r.min) :: r.id_to_off },
           .Stack r.min)
  | _ => (r, operand)

/-- `TmpVarResolver::resolve_temps` in `asmgen.rs`: rewrite every operand
of one instruction, threading the resolver state left to right. -/
def resolve_temps (r : TmpVarResolver) (instr : InstructionAsm) : TmpVarResolver × InstructionAsm :=
  match instr with
  | .Mov src dst =>
      let ps := temp_to_stack r src
      let pd := temp_to_stack ps.1 dst
      (pd.1, .Mov ps.2 pd.2)
  | .Unary unop operand =>
      let p := temp_to_stack r operand
      (p.1, .Unary unop p.2)
  | .Binary binop src dst =>
      let ps := temp_to_stack r src
      let pd := temp_to_stack ps.1 dst
      (pd.1, .Binary binop ps.2 pd.2)
  | .Idiv operand =>
      let p := temp_to_stack r operand
      (p.1, .Idiv p.2)
  | _ => (r, instr)

/-- The `map` over `resolve_temps` in `translate_fundef`, with the resolver
state threaded through the list. -/
def resolve_temps_list (r : TmpVarResolver) (instrs : List InstructionAsm) :
    TmpVarResolver × List InstructionAsm :=
  match instrs with
  | [] => (r, [])
  | i :: rest =>
      let p := resolve_temps r i
      let q := resolve_temps_list p.1 rest
      (q.1, p.2 :: q.2)

/-- `resolve_binary` in `asmgen.rs`: the block pushed for a `Binary`
instruction (multiply is always routed through `R11`; other operators are
routed through `R10` when both operands are stack slots); a non-`Binary`
argument pushes nothing, as in the source's silent `if let` fall-through. -/
def resolve_binary (instr : InstructionAsm) : List InstructionAsm :=
  match instr with
  | .Binary binop src dst =>
      match binop with
      | .Multiply =>
          [.Mov dst (.Reg .R11),
           .Binary binop src (.Reg .R11),
           .Mov (.Reg .R11) dst]
      | _ =>
          if src.isStackSlot && dst.isStackSlot then
            [.Mov src (.Reg .R10),
             .Binary binop (.Reg .R10) dst]
          else
            [instr]
  | _ => []

/-- The block pushed by the loop body of `fix_up_instrs` in `asmgen.rs`
for one resolved instruction. -/
def fix_up_one (instr : InstructionAsm) : List InstructionAsm :=
  match instr with
  | .Mov src dst =>
      if src.isStackSlot && dst.isStackSlot then
        [.Mov src (.Reg .R10), .Mov (.Reg .R10) dst]
      else
        [instr]
  | .Binary _ _ _ => resolve_binary instr
  | .Idiv operand =>
      match operand with
      | .Imm int =>
          [.Mov (.Imm int) (.Reg .R10), .Idiv (.Reg .R10)]
      | _ => [instr]
  | _ => [instr]

/-- The loop of `fix_up_instrs` in `asmgen.rs`: each instruction's block is
appended in order. -/
def fix_up_go (instrs : List InstructionAsm) : List InstructionAsm :=
  match instrs with
  | [] => []
  | i :: rest => fix_up_one i ++ fix_up_go rest

/-- `fix_up_instrs` in `asmgen.rs`: the legalizer; a frame-allocation
instruction is pushed first when `min_used` is non-zero, then every
instruction is fixed up in order. -/
def fix_up_instrs (resolved_instrs : List InstructionAsm) (min_used : Int) :
    List InstructionAsm :=
  (if min_used ≠ 0 then [.AllocStack min_used] else []) ++ fix_up_go resolved_instrs

/-- `translate_fundef` in `asmgen.rs`: selection, then resolution (the
resolver's `min_used` is read after the whole sequence is resolved), then
legalization. -/
def translate_fundef (tacky_fundef : FunDefTacky) : FunDefAsm :=
  let pseudo_instrs := translate_with_pseudo tacky_fundef.instructions
  let pr := resolve_temps_list TmpVarResolver.new pseudo_instrs
  { identifier := tacky_fundef.identifier,
    instructions := fix_up_instrs pr.2 pr.1.min_used }

/-- `gen_asm` in `asmgen.rs`. -/
def gen_asm (tacky_prog : ProgramTacky) : ProgramAsm :=
  { function := translate_fundef tacky_prog.function }

/-- `Display for Register` in `asmgen.rs`. -/
def Register.fmt (r : Register) : String :=
  match r with
  | .AX => "%eax"
  | .R10 => "%r10d"
  | .DX => "%edx"
  | .R11 => "%r11d"

/-- `Display for OperandAsm` in `asmgen.rs`; the `panic!` on a pseudo
operand is modelled as `none`. -/
def OperandAsm.fmt (operand : OperandAsm) : Option String :=
  match operand with
  | .Imm int => some ("$" ++ toString int)
  | .Reg r => some r.fmt
  | .Stack off => some (toString off ++ "(%rbp)")
  | .Pseudo _ => none

/-- `Display for InstructionAsm` in `asmgen.rs`; the `panic!` on a
division-class operator stored in `Binary` is modelled as `none`, as is any
operand whose own rendering fails. -/
def InstructionAsm.fmt (instr : InstructionAsm) : Option String :=
  match instr with
  | .Mov src dst => do
      let s ← src.fmt
      let d ← dst.fmt
      pure ("movl " ++ s ++ ", " ++ d)
  | .Ret => some "movq %rbp, %rsp\n\tpopq %rbp\n\tret"
  | .Unary unop operand =>
      (operand.fmt).map (fun o =>
        (match unop with
         | .Negate => "negl "
         | .BitwiseComplement => "notl ") ++ o)
  | .AllocStack off => some ("subq $" ++ toString (-1 * off) ++ ", %rsp")
  | .Cdq => some "cdq"
  | .Binary binop src dst =>
      (match binop with
       | .Add => some "addl "
       | .Subtract => some "subl "
       | .Multiply => some "imull "
       | .BitwiseAnd => some "andl "
       | .BitwiseOr => some "orl "
       | .BitwiseXor => some "xorl "
       | _ => none).bind (fun m => do
        let s ← src.fmt
        let d ← dst.fmt
        pure (m ++ s ++ ", " ++ d))
  | .Idiv operand => (operand.fmt).map (fun o => "idivl " ++ o)

/-- The instruction-body accumulation of `Display for FunDefAsm` in
`asmgen.rs`: each instruction is rendered on its own line after a tab. -/
def fmt_instrs (instrs : List InstructionAsm) : Option String :=
  match instrs with
  | [] => some ""
  | i :: rest => do
      let s ← i.fmt
      let r ← fmt_instrs rest
      pure ("\n\t" ++ s ++ r)

/-- `Display for FunDefAsm` in `asmgen.rs`, prologue included. -/
def FunDefAsm.fmt (fd : FunDefAsm) : Option String :=
  (fmt_instrs fd.instructions).map (fun body =>
    "\t.globl " ++ fd.identifier ++ "\n" ++ fd.identifier ++
      ":\n\tpushq %rbp\n\tmovq %rsp, %rbp" ++ body)

/-- `Display for ProgramAsm` in `asmgen.rs`. -/
def ProgramAsm.fmt (p : ProgramAsm) : Option String :=
  (p.function.fmt).map (fun s =>
    s ++ "\n\t.section .note.GNU-stack,\"\",@progbits\n")

/-- Whether an instruction is free of `Pseudo` operands. -/
def instrNoPseudo (instr : InstructionAsm) : Bool :=
  match instr with
  | .Mov src dst => !src.isPseudo && !dst.isPseudo
  | .Unary _ operand => !operand.isPseudo
  | .Binary _ src dst => !src.isPseudo && !dst.isPseudo
  | .Idiv operand => !operand.isPseudo
  | _ => true

/-- Whether an instruction is an `AllocStack` (frame allocation). -/
def instrIsAlloc (instr : InstructionAsm) : Bool :=
  match instr with
  | .AllocStack _ => true
  | _ => false

/-- Whether a binary operator may be stored in a machine `Binary`
instruction without hitting the rendering panic (anything but the
division-class operators). -/
def binopOk (binop : BinaryOp) : Bool :=
  match binop with
  | .Divide => false
  | .Remainder => false
  | _ => true

/-- Whether an instruction is not a machine `Binary` carrying a
division-class operator. -/
def instrNoDivRem (instr : InstructionAsm) : Bool :=
  match instr with
  | .Binary binop _ _ => binopOk binop
  | _ => true

/-- Whether an instruction is not a `Binary` with the `Multiply`
operator. -/
def instrNoMul (instr : InstructionAsm) : Bool :=
  match instr with
  | .Binary .Multiply _ _ => false
  | _ => true

/-- The set of temporary ids referenced by an IR value. -/
def valIds (tval : ValTacky) : Finset Nat :=
  match tval with
  | .Const _ => ∅
  | .TmpVar no => {no}

/-- The set of temporary ids referenced by an IR instruction. -/
def tackyInstrIds (tacky_instr : InstructionTacky) : Finset Nat :=
  match tacky_instr with
  | .Ret v => valIds v
  | .Unary _ src dst => valIds src ∪ valIds dst
  | .Binary _ src1 src2 dst => valIds src1 ∪ valIds src2 ∪ valIds dst

/-- The set of temporary ids referenced by an IR instruction sequence. -/
def tackyIds (tacky_instrs : List InstructionTacky) : Finset Nat :=
  match tacky_instrs with
  | [] => ∅
  | i :: rest => tackyInstrIds i ∪ tackyIds rest

/-- The set of temporary ids referenced by an IR function. -/
def funTmpIds (tacky_fundef : FunDefTacky) : Finset Nat :=
  tackyIds tacky_fundef.instructions

/-- The set of pseudo ids referenced by a machine operand. -/
def opIds (operand : OperandAsm) : Finset Nat :=
  match operand with
  | .Pseudo id => {id}
  | _ => ∅

/-- The set of pseudo ids referenced by a machine instruction. -/
def asmInstrIds (instr : InstructionAsm) : Finset Nat :=
  match instr with
  | .Mov src dst => opIds src ∪ opIds dst
  | .Unary _ operand => opIds operand
  | .Binary _ src dst => opIds src ∪ opIds dst
  | .Idiv operand => opIds operand
  | _ => ∅

/-- The set of pseudo ids referenced by a machine instruction sequence. -/
def asmIds (instrs : List InstructionAsm) : Finset Nat :=
  match instrs with
  | [] => ∅
  | i :: rest => asmInstrIds i ∪ asmIds rest

/-- C1 (counterexample): the Legalizer is not idempotent. Legalizing the
resolved multiply `imull $2, -4(%rbp)` (with 4 frame bytes) yields a
sequence containing `Binary(Multiply, Imm 2, Reg R11)`, and re-running the
Legalizer on that output (with zero additional frame bytes) expands the
multiply again because the multiply rule applies regardless of the
destination's form. -/
theorem legalizer_second_pass_changes_multiply :
    fix_up_instrs (fix_up_instrs [.Binary .Multiply (.Imm 2) (.Stack (-4))] (-4)) 0 ≠
      fix_up_instrs [.Binary .Multiply (.Imm 2) (.Stack (-4))] (-4) := by decide

/-- C4: for an IR `Binary` with operator `Divide` or `Remainder`, the
instruction selector emits exactly `Mov(translate(s1), Reg AX)`, `Cdq`,
`Idiv(translate(s2))`, then a `Mov` from the fixed result register
(`AX` for the quotient, `DX` for the remainder) into `translate(dst)`. -/
theorem divide_remainder_selection (s1 s2 dst : ValTacky) (rest : List InstructionTacky) :
    translate_with_pseudo (.Binary .Divide s1 s2 dst :: rest) =
      [.Mov (translate_valtacky s1) (.Reg .AX), .Cdq,
       .Idiv (translate_valtacky s2),
       .Mov (.Reg .AX) (translate_valtacky dst)] ++ translate_with_pseudo rest
    ∧ translate_with_pseudo (.Binary .Remainder s1 s2 dst :: rest) =
      [.Mov (translate_valtacky s1) (.Reg .AX), .Cdq,
       .Idiv (translate_valtacky s2),
       .Mov (.Reg .DX) (translate_valtacky dst)] ++ translate_with_pseudo rest :=
  ⟨rfl, rfl⟩

/-- C5: every `Binary Multiply` reaching the Legalizer, regardless of the
form of its destination, is rewritten into `Mov(dst, Reg R11)`,
`Binary(Multiply, src, Reg R11)`, `Mov(Reg R11, dst)`. -/
theorem multiply_legalization (src dst : OperandAsm) (rest : List InstructionAsm) :
    fix_up_go (.Binary .Multiply src dst :: rest) =
      .Mov dst (.Reg .R11) :: .Binary .Multiply src (.Reg .R11) ::
        .Mov (.Reg .R11) dst :: fix_up_go rest := rfl

/-- C6: a `Mov` between two stack slots is split through `R10`; a
non-`Multiply` `Binary` between two stack slots is rewritten through
`R10`; every other `Mov` and non-`Multiply` `Binary` passes through the
Legalizer unchanged. -/
theorem mov_binary_legalization (src dst : OperandAsm) (binop : BinaryOp)
    (rest : List InstructionAsm) :
    (src.isStackSlot = true → dst.isStackSlot = true →
      fix_up_go (.Mov src dst :: rest) =
        .Mov src (.Reg .R10) :: .Mov (.Reg .R10) dst :: fix_up_go rest)
    ∧ (¬(src.isStackSlot = true ∧ dst.isStackSlot = true) →
      fix_up_go (.Mov src dst :: rest) = .Mov src dst :: fix_up_go rest)
    ∧ (binop ≠ .Multiply → src.isStackSlot = true → dst.isStackSlot = true →
      fix_up_go (.Binary binop src dst :: rest) =
        .Mov src (.Reg .R10) :: .Binary binop (.Reg .R10) dst :: fix_up_go rest)
    ∧ (binop ≠ .Multiply → ¬(src.isStackSlot = true ∧ dst.isStackSlot = true) →
      fix_up_go (.Binary binop src dst :: rest) =
        .Binary binop src dst :: fix_up_go rest) := by
  refine ⟨fun hs hd => ?_, fun h => ?_, fun hm hs hd => ?_, fun hm h => ?_⟩
  · simp [fix_up_go, fix_up_one, hs, hd]
  · cases hs : src.isStackSlot <;> cases hd : dst.isStackSlot <;>
      simp_all [fix_up_go, fix_up_one]
  · cases binop <;> simp_all [fix_up_go, fix_up_one, resolve_binary]
  · cases binop <;> cases hs : src.isStackSlot <;> cases hd : dst.isStackSlot <;>
      simp_all [fix_up_go, fix_up_one, resolve_binary]

/-- C6 witness: the stack-to-stack `Mov` split and the pass-through of a
`Binary Add` with an immediate source, at concrete operands. -/
theorem mov_binary_legalization_witness :
    fix_up_go [.Mov (.Stack (-4)) (.Stack (-8))] =
      [.Mov (.Stack (-4)) (.Reg .R10), .Mov (.Reg .R10) (.Stack (-8))]
    ∧ fix_up_go [.Binary .Add (.Imm 1) (.Stack (-8))] =
      [.Binary .Add (.Imm 1) (.Stack (-8))] := by
  constructor
  · have h := (mov_binary_legalization (.Stack (-4)) (.Stack (-8)) .Add []).1
      (by decide) (by decide)
    simpa using h
  · have h := (mov_binary_legalization (.Imm 1) (.Stack (-8)) .Add []).2.2.2
      (by decide) (by decide)
    simpa using h

/-- C7: an `Idiv` whose operand is an immediate is rewritten into
`Mov(operand, Reg R10)`, `Idiv(Reg R10)`; an `Idiv` with any non-immediate
operand passes through unchanged. -/
theorem idiv_legalization (operand : OperandAsm) (rest : List InstructionAsm) :
    (∀ int, operand = .Imm int →
      fix_up_go (.Idiv operand :: rest) =
        .Mov (.Imm int) (.Reg .R10) :: .Idiv (.Reg .R10) :: fix_up_go rest)
    ∧ (operand.isImm = false →
      fix_up_go (.Idiv operand :: rest) = .Idiv operand :: fix_up_go rest) := by
  constructor
  · rintro int rfl
    simp [fix_up_go, fix_up_one]
  · intro h
    cases operand <;> simp_all [fix_up_go, fix_up_one, OperandAsm.isImm]

/-- C7 witness: the rewrite at `Idiv $7` and the pass-through at
`Idiv -4(%rbp)`. -/
theorem idiv_legalization_witness :
    fix_up_go [.Idiv (.Imm 7)] = [.Mov (.Imm 7) (.Reg .R10), .Idiv (.Reg .R10)]
    ∧ fix_up_go [.Idiv (.Stack (-4))] = [.Idiv (.Stack (-4))] := by
  constructor
  · simpa using (idiv_legalization (.Imm 7) []).1 7 rfl
  · simpa using (idiv_legalization (.Stack (-4)) []).2 (by decide)

/-- C8: compilation is deterministic: `gen_asm` followed by textual
rendering is a function of the input IR program alone, so equal inputs
yield identical assembly text. -/
theorem compilation_deterministic (p q : ProgramTacky) (h : p = q) :
    ProgramAsm.fmt (gen_asm p) = ProgramAsm.fmt (gen_asm q) := by rw [h]

/-- C8 witness: determinism at the one-instruction program
`return 0`. -/
theorem compilation_deterministic_witness :
    ProgramAsm.fmt (gen_asm ⟨⟨"main", [.Ret (.Const 0)]⟩⟩) =
      ProgramAsm.fmt (gen_asm ⟨⟨"main", [.Ret (.Const 0)]⟩⟩) :=
  compilation_deterministic ⟨⟨"main", [.Ret (.Const 0)]⟩⟩
    ⟨⟨"main", [.Ret (.Const 0)]⟩⟩ rfl

/-- C9: rendering an operand at the Emitter stage fails exactly on
`Pseudo` operands: `Imm`, `Reg` and `Stack` operands all render to some
text, and a `Pseudo` renders to `none`. -/
theorem pseudo_rendering_fails (operand : OperandAsm) :
    operand.fmt = none ↔ operand.isPseudo = true := by
  cases operand <;> simp [OperandAsm.fmt, OperandAsm.isPseudo]

/-- C9 witness: rendering the concrete pseudo operand `Pseudo 3`
fails. -/
theorem pseudo_rendering_fails_witness :
    (OperandAsm.Pseudo 3).fmt = none :=
  (pseudo_rendering_fails (.Pseudo 3)).mpr rfl

lemma bool_eq_false_of_not_true {b : Bool} (h : ¬ b = true) : b = false := by
  cases b with
  | false => rfl
  | true => exact absurd rfl h

lemma fix_up_go_append (a b : List InstructionAsm) :
    fix_up_go (a ++ b) = fix_up_go a ++ fix_up_go b := by
  induction a with
  | nil => rfl
  | cons i rest ih => simp [fix_up_go, ih]

lemma fix_up_go_of_fixed (l : List InstructionAsm)
    (h : ∀ j ∈ l, fix_up_one j = [j]) : fix_up_go l = l := by
  induction l with
  | nil => rfl
  | cons i rest ih =>
      rw [fix_up_go, h i (by simp), ih (fun j hj => h j (by simp [hj]))]
      rfl

lemma fix_up_one_mov_not_both (src dst : OperandAsm)
    (h : (src.isStackSlot && dst.isStackSlot) = false) :
    fix_up_one (.Mov src dst) = [.Mov src dst] := by
  simp [fix_up_one, h]

lemma fix_up_one_binary_not_both (binop : BinaryOp) (src dst : OperandAsm)
    (h1 : binop ≠ .Multiply) (h2 : (src.isStackSlot && dst.isStackSlot) = false) :
    fix_up_one (.Binary binop src dst) = [.Binary binop src dst] := by
  cases binop <;> simp_all [fix_up_one, resolve_binary]

lemma fix_up_one_idiv_not_imm (operand : OperandAsm) (h : operand.isImm = false) :
    fix_up_one (.Idiv operand) = [.Idiv operand] := by
  cases operand <;> simp_all [fix_up_one, OperandAsm.isImm]

lemma fix_up_one_output_fixed (i : InstructionAsm) (h : instrNoMul i = true) :
    ∀ j ∈ fix_up_one i, fix_up_one j = [j] := by
  cases i with
  | Mov src dst =>
      intro j hj
      simp only [fix_up_one] at hj
      split at hj
      case isTrue hc =>
        simp at hj
        rcases hj with rfl | rfl <;>
          exact fix_up_one_mov_not_both _ _ (by simp [OperandAsm.isStackSlot])
      case isFalse hc =>
        simp at hj
        subst hj
        exact fix_up_one_mov_not_both _ _ (bool_eq_false_of_not_true hc)
  | Binary binop src dst =>
      cases binop
      case Multiply => simp [instrNoMul] at h
      all_goals {
        intro j hj
        simp only [fix_up_one, resolve_binary] at hj
        split at hj
        case isTrue hc =>
          simp at hj
          rcases hj with rfl | rfl
          · exact fix_up_one_mov_not_both _ _ (by simp [OperandAsm.isStackSlot])
          · exact fix_up_one_binary_not_both _ _ _ (by decide) (by simp [OperandAsm.isStackSlot])
        case isFalse hc =>
          simp at hj
          subst hj
          exact fix_up_one_binary_not_both _ _ _ (by decide) (bool_eq_false_of_not_true hc)
      }
  | Idiv operand =>
      intro j hj
      cases operand with
      | Imm int =>
          simp [fix_up_one] at hj
          rcases hj with rfl | rfl
          · exact fix_up_one_mov_not_both _ _ (by simp [OperandAsm.isStackSlot])
          · exact fix_up_one_idiv_not_imm _ (by simp [OperandAsm.isImm])
      | Reg r =>
          simp [fix_up_one] at hj
          subst hj
          exact fix_up_one_idiv_not_imm _ (by simp [OperandAsm.isImm])
      | Pseudo id =>
          simp [fix_up_one] at hj
          subst hj
          exact fix_up_one_idiv_not_imm _ (by simp [OperandAsm.isImm])
      | Stack off =>
          simp [fix_up_one] at hj
          subst hj
          exact fix_up_one_idiv_not_imm _ (by simp [OperandAsm.isImm])
  | Ret =>
      intro j hj
      simp [fix_up_one] at hj
      subst hj
      rfl
  | Unary unop operand =>
      intro j hj
      simp [fix_up_one] at hj
      subst hj
      rfl
  | AllocStack off =>
      intro j hj
      simp [fix_up_one] at hj
      subst hj
      rfl
  | Cdq =>
      intro j hj
      simp [fix_up_one] at hj
      subst hj
      rfl

lemma fix_up_go_idem (l : List InstructionAsm)
    (h : ∀ i ∈ l, instrNoMul i = true) :
    fix_up_go (fix_up_go l) = fix_up_go l := by
  induction l with
  | nil => rfl
  | cons i rest ih =>
      have hi : instrNoMul i = true := h i (by simp)
      have hrest : ∀ j ∈ rest, instrNoMul j = true := fun j hj => h j (by simp [hj])
      calc fix_up_go (fix_up_go (i :: rest))
          = fix_up_go (fix_up_one i ++ fix_up_go rest) := rfl
        _ = fix_up_go (fix_up_one i) ++ fix_up_go (fix_up_go rest) := fix_up_go_append _ _
        _ = fix_up_one i ++ fix_up_go rest := by
            rw [fix_up_go_of_fixed _ (fix_up_one_output_fixed i hi), ih hrest]
        _ = fix_up_go (i :: rest) := rfl

/-- C1 (amended): re-running the Legalizer on its own output with zero
additional frame bytes returns the sequence unchanged, provided the input
contains no `Binary Multiply` instruction; for multiplies the rewrite
applies unconditionally, so a second pass expands them again. -/
theorem legalizer_idempotent_without_multiply (l : List InstructionAsm) (m : Int)
    (h : l.all instrNoMul = true) :
    fix_up_instrs (fix_up_instrs l m) 0 = fix_up_instrs l m := by
  have h' : ∀ i ∈ l, instrNoMul i = true := by
    intro i hi
    exact List.all_eq_true.mp h i hi
  have hgg := fix_up_go_idem l h'
  by_cases hm : m = 0
  · subst hm
    simpa [fix_up_instrs] using hgg
  · simp [fix_up_instrs, hm, fix_up_go, fix_up_one, hgg]

/-- C1 (amended) witness: a multiply-free resolved sequence (a
stack-to-stack move and an immediate divide) on which the Legalizer is
idempotent. -/
theorem legalizer_idempotent_without_multiply_witness :
    ([.Mov (.Stack (-4)) (.Stack (-8)), .Idiv (.Imm 3)] : List InstructionAsm).all
        instrNoMul = true
    ∧ fix_up_instrs
        (fix_up_instrs [.Mov (.Stack (-4)) (.Stack (-8)), .Idiv (.Imm 3)] (-8)) 0 =
      fix_up_instrs [.Mov (.Stack (-4)) (.Stack (-8)), .Idiv (.Imm 3)] (-8) :=
  ⟨by decide, legalizer_idempotent_without_multiply _ _ (by decide)⟩

lemma temp_to_stack_not_pseudo (r : TmpVarResolver) (operand : OperandAsm) :
    ((temp_to_stack r operand).2).isPseudo = false := by
  cases operand with
  | Pseudo id =>
      cases h : lookupOff r.id_to_off id <;>
        simp [temp_to_stack, h, OperandAsm.isPseudo]
  | Imm int => rfl
  | Reg r => rfl
  | Stack off => rfl

lemma resolve_temps_noPseudo (r : TmpVarResolver) (i : InstructionAsm) :
    instrNoPseudo (resolve_temps r i).2 = true := by
  cases i <;> simp [resolve_temps, instrNoPseudo, temp_to_stack_not_pseudo]

lemma resolve_temps_list_noPseudo (r : TmpVarResolver) (l : List InstructionAsm) :
    ((resolve_temps_list r l).2).all instrNoPseudo = true := by
  induction l generalizing r with
  | nil => rfl
  | cons i rest ih =>
      simp [resolve_temps_list, List.all_cons, resolve_temps_noPseudo, ih]

lemma fix_up_go_all (p : InstructionAsm → Bool)
    (hstep : ∀ i, p i = true → (fix_up_one i).all p = true) :
    ∀ l, l.all p = true → (fix_up_go l).all p = true := by
  intro l hl
  induction l with
  | nil => rfl
  | cons i rest ih =>
      simp only [List.all_cons, Bool.and_eq_true] at hl
      rw [fix_up_go, List.all_append]
      simp [hstep i hl.1, ih hl.2]

lemma fix_up_one_noPseudo (i : InstructionAsm) (h : instrNoPseudo i = true) :
    (fix_up_one i).all instrNoPseudo = true := by
  cases i with
  | Mov src dst =>
      simp only [fix_up_one]
      split <;> simp_all [instrNoPseudo, OperandAsm.isPseudo, List.all_cons]
  | Binary binop src dst =>
      cases binop <;> simp only [fix_up_one, resolve_binary] <;>
        first
        | (split <;> simp_all [instrNoPseudo, OperandAsm.isPseudo, List.all_cons])
        | simp_all [instrNoPseudo, OperandAsm.isPseudo, List.all_cons]
  | Idiv operand =>
      cases operand <;>
        simp_all [fix_up_one, instrNoPseudo, OperandAsm.isPseudo, List.all_cons]
  | Ret => rfl
  | Unary unop operand => simp_all [fix_up_one, instrNoPseudo, List.all_cons]
  | AllocStack off => rfl
  | Cdq => rfl

/-- C2: for every IR function, the instruction sequence produced by the
full pipeline (selection, then temporary resolution, then legalization)
contains zero `Pseudo` (temporary) operands. -/
theorem pipeline_no_pseudo (f : FunDefTacky) :
    ((translate_fundef f).instructions).all instrNoPseudo = true := by
  simp only [translate_fundef, fix_up_instrs]
  rw [List.all_append]
  have h1 : (if (resolve_temps_list TmpVarResolver.new
        (translate_with_pseudo f.instructions)).1.min_used ≠ 0 then
      [InstructionAsm.AllocStack (resolve_temps_list TmpVarResolver.new
        (translate_with_pseudo f.instructions)).1.min_used]
    else []).all instrNoPseudo = true := by
    split <;> rfl
  have h2 := fix_up_go_all instrNoPseudo fix_up_one_noPseudo
    ((resolve_temps_list TmpVarResolver.new (translate_with_pseudo f.instructions)).2)
    (resolve_temps_list_noPseudo _ _)
  rw [h1, h2]
  rfl

/-- The keys of the association list modelling the resolver's map. -/
def keysOf (l : List (Nat × Int)) : List Nat := l.map Prod.fst

/-- The resolver-state invariant: `s` is the set of ids assigned so far,
`min_used` sits `4` bytes per assigned id below the frame base, and `min`
is the next free slot. -/
def ResolverInv (r : TmpVarResolver) (s : Finset Nat) : Prop :=
  (keysOf r.id_to_off).toFinset = s ∧
  r.min_used = -4 * (s.card : Int) ∧
  r.min = -4 * ((s.card : Int) + 1)

lemma lookupOff_none_iff (l : List (Nat × Int)) (id : Nat) :
    lookupOff l id = none ↔ id ∉ keysOf l := by
  induction l with
  | nil => simp [lookupOff, keysOf]
  | cons kv rest ih =>
      obtain ⟨k, v⟩ := kv
      by_cases hk : k = id
      · subst hk
        simp [lookupOff, keysOf]
      · simp [lookupOff, keysOf, hk, ih, Ne.symm hk]

lemma new_resolver_inv : ResolverInv TmpVarResolver.new ∅ := by
  refine ⟨rfl, by norm_num [TmpVarResolver.new], by norm_num [TmpVarResolver.new]⟩

lemma temp_to_stack_inv (r : TmpVarResolver) (s : Finset Nat) (operand : OperandAsm)
    (h : ResolverInv r s) :
    ResolverInv (temp_to_stack r operand).1 (s ∪ opIds operand) := by
  obtain ⟨hk, hu, hm⟩ := h
  cases operand with
  | Pseudo id =>
      simp only [temp_to_stack, opIds]
      cases hl : lookupOff r.id_to_off id with
      | some off =>
          have hid : id ∈ keysOf r.id_to_off := by
            by_contra hc
            rw [(lookupOff_none_iff _ _).mpr hc] at hl
            exact Option.noConfusion hl
          have hids : id ∈ s := by
            rw [← hk]
            exact List.mem_toFinset.mpr hid
          have hun : s ∪ {id} = s := by
            apply Finset.union_eq_left.mpr
            simpa using hids
          rw [hun]
          exact ⟨hk, hu, hm⟩
      | none =>
          have hid : id ∉ keysOf r.id_to_off := (lookupOff_none_iff _ _).mp hl
          have hids : id ∉ s := by
            rw [← hk]
            intro hc
            exact hid (List.mem_toFinset.mp hc)
          have hun : s ∪ {id} = insert id s := by
            rw [Finset.union_comm]
            simp [Finset.insert_eq]
          have hcard : ((s ∪ {id}).card : Int) = (s.card : Int) + 1 := by
            rw [hun, Finset.card_insert_of_not_mem hids]
            push_cast
            ring
          refine ⟨?_, ?_, ?_⟩
          · show (keysOf ((id, r.min) :: r.id_to_off)).toFinset = s ∪ {id}
            rw [hun]
            have hks : keysOf ((id, r.min) :: r.id_to_off) = id :: keysOf r.id_to_off := rfl
            rw [hks, List.toFinset_cons, hk]
          · show r.min = -4 * ((s ∪ {id}).card : Int)
            rw [hcard, hm]
          · show r.min - 4 = -4 * (((s ∪ {id}).card : Int) + 1)
            rw [hcard, hm]
            ring
  | Imm int =>
      simp only [temp_to_stack, opIds]
      rw [Finset.union_empty]
      exact ⟨hk, hu, hm⟩
  | Reg reg =>
      simp only [temp_to_stack, opIds]
      rw [Finset.union_empty]
      exact ⟨hk, hu, hm⟩
  | Stack off =>
      simp only [temp_to_stack, opIds]
      rw [Finset.union_empty]
      exact ⟨hk, hu, hm⟩

lemma resolve_temps_inv (r : TmpVarResolver) (s : Finset Nat) (i : InstructionAsm)
    (h : ResolverInv r s) :
    ResolverInv (resolve_temps r i).1 (s ∪ asmInstrIds i) := by
  cases i with
  | Mov src dst =>
      simp only [resolve_temps, asmInstrIds]
      have h2 := temp_to_stack_inv _ _ dst (temp_to_stack_inv r s src h)
      rwa [Finset.union_assoc] at h2
  | Binary binop src dst =>
      simp only [resolve_temps, asmInstrIds]
      have h2 := temp_to_stack_inv _ _ dst (temp_to_stack_inv r s src h)
      rwa [Finset.union_assoc] at h2
  | Unary unop operand =>
      simp only [resolve_temps, asmInstrIds]
      exact temp_to_stack_inv r s operand h
  | Idiv operand =>
      simp only [resolve_temps, asmInstrIds]
      exact temp_to_stack_inv r s operand h
  | Ret =>
      simp only [resolve_temps, asmInstrIds]
      rw [Finset.union_empty]
      exact h
  | AllocStack off =>
      simp only [resolve_temps, asmInstrIds]
      rw [Finset.union_empty]
      exact h
  | Cdq =>
      simp only [resolve_temps, asmInstrIds]
      rw [Finset.union_empty]
      exact h

lemma resolve_temps_list_inv (l : List InstructionAsm) :
    ∀ (r : TmpVarResolver) (s : Finset Nat), ResolverInv r s →
      ResolverInv (resolve_temps_list r l).1 (s ∪ asmIds l) := by
  induction l with
  | nil =>
      intro r s h
      simp only [resolve_temps_list, asmIds]
      rw [Finset.union_empty]
      exact h
  | cons i rest ih =>
      intro r s h
      have h1 := resolve_temps_inv r s i h
      have h2 := ih _ _ h1
      rw [Finset.union_assoc] at h2
      exact h2

lemma final_min_used (l : List InstructionAsm) :
    (resolve_temps_list TmpVarResolver.new l).1.min_used =
      -4 * ((asmIds l).card : Int) := by
  have h := resolve_temps_list_inv l TmpVarResolver.new ∅ new_resolver_inv
  rw [Finset.empty_union] at h
  exact h.2.1

lemma opIds_translate (v : ValTacky) : opIds (translate_valtacky v) = valIds v := by
  cases v <;> rfl

lemma opIds_reg (r : Register) : opIds (.Reg r) = ∅ := rfl

lemma asmIds_append (a b : List InstructionAsm) :
    asmIds (a ++ b) = asmIds a ∪ asmIds b := by
  induction a with
  | nil => simp [asmIds]
  | cons i rest ih => simp [asmIds, ih, Finset.union_assoc]

lemma asmIds_translate_one (i : InstructionTacky) :
    asmIds (translate_one i) = tackyInstrIds i := by
  cases i with
  | Ret v =>
      apply Finset.ext
      intro x
      simp [translate_one, asmIds, asmInstrIds, opIds_translate, opIds_reg, tackyInstrIds]
  | Unary op src dst =>
      apply Finset.ext
      intro x
      simp [translate_one, asmIds, asmInstrIds, opIds_translate, opIds_reg, tackyInstrIds]
  | Binary op src1 src2 dst =>
      cases op <;>
        (apply Finset.ext
         intro x
         simp [translate_one, asmIds, asmInstrIds, opIds_translate, opIds_reg,
           tackyInstrIds] <;> tauto)

lemma asmIds_translate_with_pseudo (l : List InstructionTacky) :
    asmIds (translate_with_pseudo l) = tackyIds l := by
  induction l with
  | nil => rfl
  | cons i rest ih =>
      rw [translate_with_pseudo, asmIds_append, asmIds_translate_one, ih]
      rfl

lemma translate_one_noAlloc (i : InstructionTacky) :
    (translate_one i).all (fun j => !instrIsAlloc j) = true := by
  cases i with
  | Ret v => rfl
  | Unary op src dst => rfl
  | Binary op src1 src2 dst => cases op <;> rfl

lemma translate_with_pseudo_noAlloc (l : List InstructionTacky) :
    (translate_with_pseudo l).all (fun j => !instrIsAlloc j) = true := by
  induction l with
  | nil => rfl
  | cons i rest ih =>
      rw [translate_with_pseudo, List.all_append]
      simp [translate_one_noAlloc i, ih]

lemma resolve_temps_isAlloc (r : TmpVarResolver) (i : InstructionAsm) :
    instrIsAlloc (resolve_temps r i).2 = instrIsAlloc i := by
  cases i <;> rfl

lemma resolve_temps_list_noAlloc (r : TmpVarResolver) (l : List InstructionAsm) :
    ((resolve_temps_list r l).2).all (fun j => !instrIsAlloc j) =
      l.all (fun j => !instrIsAlloc j) := by
  induction l generalizing r with
  | nil => rfl
  | cons i rest ih =>
      simp [resolve_temps_list, List.all_cons, resolve_temps_isAlloc, ih]

lemma fix_up_one_noAlloc (i : InstructionAsm)
    (h : (fun j => !instrIsAlloc j) i = true) :
    (fix_up_one i).all (fun j => !instrIsAlloc j) = true := by
  cases i with
  | Mov src dst =>
      simp only [fix_up_one]
      split <;> rfl
  | Binary binop src dst =>
      cases binop <;> simp only [fix_up_one, resolve_binary] <;>
        first
        | (split <;> rfl)
        | rfl
  | Idiv operand => cases operand <;> rfl
  | Ret => rfl
  | Unary unop operand => rfl
  | AllocStack off => simp [instrIsAlloc] at h
  | Cdq => rfl

lemma countP_alloc_zero_of_all_not (l : List InstructionAsm)
    (h : l.all (fun j => !instrIsAlloc j) = true) :
    l.countP instrIsAlloc = 0 := by
  induction l with
  | nil => rfl
  | cons i rest ih =>
      simp only [List.all_cons, Bool.and_eq_true] at h
      have hi : instrIsAlloc i = false := by simpa using h.1
      simp [List.countP_cons, hi, ih h.2]

/-- C3: the Legalizer emits exactly one frame-allocation instruction, at
the head of the sequence, whose payload is `-4` bytes per distinct
temporary id referenced in the function (rendered as `subq $4k, %rsp`),
and emits none at all when the function references no temporaries. -/
theorem frame_sizing (f : FunDefTacky) :
    ((translate_fundef f).instructions).countP instrIsAlloc =
      (if (funTmpIds f).card = 0 then 0 else 1)
    ∧ (0 < (funTmpIds f).card →
      ((translate_fundef f).instructions).head? =
        some (.AllocStack (-4 * ((funTmpIds f).card : Int))))
    ∧ InstructionAsm.fmt (.AllocStack (-4 * ((funTmpIds f).card : Int))) =
        some ("subq $" ++ toString (4 * ((funTmpIds f).card : Int)) ++ ", %rsp") := by
  have hmu : (resolve_temps_list TmpVarResolver.new
      (translate_with_pseudo f.instructions)).1.min_used =
      -4 * ((funTmpIds f).card : Int) := by
    rw [final_min_used, asmIds_translate_with_pseudo]
    rfl
  have htail : (fix_up_go ((resolve_temps_list TmpVarResolver.new
      (translate_with_pseudo f.instructions)).2)).countP instrIsAlloc = 0 := by
    apply countP_alloc_zero_of_all_not
    apply fix_up_go_all _ fix_up_one_noAlloc
    rw [resolve_temps_list_noAlloc]
    exact translate_with_pseudo_noAlloc f.instructions
  have hfmt : InstructionAsm.fmt (.AllocStack (-4 * ((funTmpIds f).card : Int))) =
      some ("subq $" ++ toString (4 * ((funTmpIds f).card : Int)) ++ ", %rsp") := by
    simp only [InstructionAsm.fmt]
    have harith : -1 * (-4 * ((funTmpIds f).card : Int)) =
        4 * ((funTmpIds f).card : Int) := by ring
    rw [harith]
  simp only [translate_fundef, fix_up_instrs, hmu]
  by_cases hk : (funTmpIds f).card = 0
  · refine ⟨?_, ?_, hfmt⟩
    · simp [hk, List.countP_append, htail]
    · intro hpos
      rw [hk] at hpos
      omega
  · have hpos : 0 < (funTmpIds f).card := Nat.pos_of_ne_zero hk
    have hne : (-4 * ((funTmpIds f).card : Int)) ≠ 0 := by
      intro heq
      omega
    refine ⟨?_, ?_, hfmt⟩
    · rw [if_pos hne, List.countP_append, htail, if_neg hk]
      simp [List.countP_cons, instrIsAlloc]
    · intro _
      rw [if_pos hne]
      rfl

/-- A concrete one-temporary IR function, `main` consisting of
`return t0`. -/
def returnTmpFun : FunDefTacky :=
  { identifier := "main", instructions := [.Ret (.TmpVar 0)] }

/-- C3 witness: the function `return t0` references one temporary, and its
compiled body starts with a frame allocation of 4 bytes
(`AllocStack (-4)`). -/
theorem frame_sizing_witness :
    0 < (funTmpIds returnTmpFun).card
    ∧ ((translate_fundef returnTmpFun).instructions).head? =
      some (.AllocStack (-4 * ((funTmpIds returnTmpFun).card : Int))) :=
  ⟨by decide, (frame_sizing returnTmpFun).2.1 (by decide)⟩

lemma translate_one_noDivRem (i : InstructionTacky) :
    (translate_one i).all instrNoDivRem = true := by
  cases i with
  | Ret v => rfl
  | Unary op src dst => rfl
  | Binary op src1 src2 dst => cases op <;> rfl

lemma translate_with_pseudo_noDivRem (l : List InstructionTacky) :
    (translate_with_pseudo l).all instrNoDivRem = true := by
  induction l with
  | nil => rfl
  | cons i rest ih =>
      rw [translate_with_pseudo, List.all_append]
      simp [translate_one_noDivRem i, ih]

lemma resolve_temps_noDivRem (r : TmpVarResolver) (i : InstructionAsm) :
    instrNoDivRem (resolve_temps r i).2 = instrNoDivRem i := by
  cases i <;> rfl

lemma resolve_temps_list_noDivRem (r : TmpVarResolver) (l : List InstructionAsm) :
    ((resolve_temps_list r l).2).all instrNoDivRem = l.all instrNoDivRem := by
  induction l generalizing r with
  | nil => rfl
  | cons i rest ih =>
      simp [resolve_temps_list, List.all_cons, resolve_temps_noDivRem, ih]

lemma fix_up_one_noDivRem (i : InstructionAsm) (h : instrNoDivRem i = true) :
    (fix_up_one i).all instrNoDivRem = true := by
  cases i with
  | Mov src dst =>
      simp only [fix_up_one]
      split <;> rfl
  | Binary binop src dst =>
      cases binop with
      | Divide => simp [instrNoDivRem, binopOk] at h
      | Remainder => simp [instrNoDivRem, binopOk] at h
      | Multiply => rfl
      | Add => simp only [fix_up_one, resolve_binary]; split <;> rfl
      | Subtract => simp only [fix_up_one, resolve_binary]; split <;> rfl
      | BitwiseAnd => simp only [fix_up_one, resolve_binary]; split <;> rfl
      | BitwiseOr => simp only [fix_up_one, resolve_binary]; split <;> rfl
      | BitwiseXor => simp only [fix_up_one, resolve_binary]; split <;> rfl
  | Idiv operand => cases operand <;> rfl
  | Ret => rfl
  | Unary unop operand => rfl
  | AllocStack off => rfl
  | Cdq => rfl

/-- C10: no instruction produced by the pipeline is a machine `Binary`
carrying the `Divide` or `Remainder` operator (division-class IR
instructions are always selected into the dedicated `Cdq`/`Idiv` form), so
the panic branch in the textual rendering of machine binary instructions
is unreachable on pipeline output. -/
theorem pipeline_no_divrem_binary (f : FunDefTacky) :
    ((translate_fundef f).instructions).all instrNoDivRem = true := by
  simp only [translate_fundef, fix_up_instrs]
  rw [List.all_append]
  have h1 : (if (resolve_temps_list TmpVarResolver.new
        (translate_with_pseudo f.instructions)).1.min_used ≠ 0 then
      [InstructionAsm.AllocStack (resolve_temps_list TmpVarResolver.new
        (translate_with_pseudo f.instructions)).1.min_used]
    else []).all instrNoDivRem = true := by
    split <;> rfl
  have h2 := fix_up_go_all instrNoDivRem fix_up_one_noDivRem
    ((resolve_temps_list TmpVarResolver.new (translate_with_pseudo f.instructions)).2)
    (by rw [resolve_temps_list_noDivRem]
        exact translate_with_pseudo_noDivRem f.instructions)
  rw [h1, h2]
  rfl
